import Mathlib

/-!
# falcon: range planning, segment fetching, coordination and joining

A shallow embedding of `cmd/falcon/part.go`, `cmd/falcon/joiner.go` and
`cmd/falcon/http.go`.

Conventions of the embedding:

* a Go `string` is a `List Char` (`GoString`); Go compares strings bytewise,
  which on UTF-8 text is the lexicographic order of the code points;
* an `int64` is an `Int`, every arithmetic result passed through `wrap64`;
* a Go `error` is `Option GoError`, `none` being `nil`;
* the file system and the network are explicit arguments of the functions
  that touch them.
-/

namespace Falcon

/-! ## Basic types -/

/-- A Go string, as the list of its characters. -/
abbrev GoString := List Char

/-- Two's complement wrap-around of an `int64` result. -/
def wrap64 (x : Int) : Int := (x + 2 ^ 63) % 2 ^ 64 - 2 ^ 63

/-- Go's `/` on `int64` (truncated division) for a non-zero divisor. -/
def div64 (a b : Int) : Int := wrap64 (Int.tdiv a b)

/-- A Go `error` value that is not `nil`. -/
inductive GoError where
  | failure (msg : GoString)
  | sizeMismatch (part expected got : Int)
deriving DecidableEq, Repr

/-- The `Part` struct of `part.go`. -/
structure Part where
  URL : GoString
  Path : GoString
  RangeFrom : Int
  RangeTo : Int
deriving DecidableEq, Repr

/-- What the embedding takes as given: the results of the helpers of the package
that `part.go` and `http.go` call and that are not among the sources at hand,
and a limit of the Go runtime. -/
structure Helpers where
  FilenameFromURL : GoString → GoString
  GetValidFolderPath : GoString → GoString
  CreateFolderIfNotExist : GoString → Option GoError
  /-- Whether `HandleError` ends the process when called with this error. -/
  fatal : GoError → Bool
  /-- The largest capacity with which the runtime makes a channel of strings. -/
  maxChan : Int

/-- How a call of a function ends: it returns a value, or the process ends
inside it (`os.Exit`, or a panic) on an error. -/
inductive Returned (α : Type) where
  | value (a : α)
  | exit (e : GoError)
deriving DecidableEq, Repr

/-! ## part.go -/

/-- The `%d` verb of `fmt.Sprintf` on an integer. -/
def formatInt (i : Int) : GoString :=
  if i < 0 then '-' :: (Nat.repr i.natAbs).toList else (Nat.repr i.natAbs).toList

/-- The value of `filepath.Join folder filename` for a folder that is a cleaned,
non-empty path and a file name without separators. -/
def filepathJoin (folder filename : GoString) : GoString :=
  folder ++ '/' :: filename

/-- The part appended by iteration `i` of the loop of `calculateParts`. -/
def partAt (h : Helpers) (connections length : Int) (url : GoString) (i : Int) : Part :=
  let fromBytes := wrap64 (div64 length connections * i)
  let toBytes :=
    if i < wrap64 (connections - 1) then
      wrap64 (wrap64 (div64 length connections * wrap64 (i + 1)) - 1)
    else
      wrap64 (length - 1)
  let file := h.FilenameFromURL url
  let folder := h.GetValidFolderPath url
  let filename := file ++ ".part".toList ++ formatInt i
  { URL := url, Path := filepathJoin folder filename, RangeFrom := fromBytes, RangeTo := toBytes }

/-- The loop of `calculateParts` from index `i` on, with `n` iterations left.
When `CreateFolderIfNotExist` fails the process exits (`os.Exit(1)`). -/
def calculatePartsFrom (h : Helpers) (connections length : Int) (url : GoString) :
    Nat → Nat → Returned (List Part)
  | 0, _ => .value []
  | n + 1, i =>
    match h.CreateFolderIfNotExist (h.GetValidFolderPath url) with
    | some e => .exit e
    | none =>
      match calculatePartsFrom h connections length url n (i + 1) with
      | .exit e => .exit e
      | .value rest => .value (partAt h connections length url i :: rest)

/-- The function `calculateParts` of `part.go`: the loop runs for
`i = 0, ..., connections - 1`. -/
def calculateParts (h : Helpers) (connections length : Int) (url : GoString) :
    Returned (List Part) :=
  calculatePartsFrom h connections length url connections.toNat 0

/-- The chunk size `length / connections` of the planner. -/
def chunk (connections length : Int) : Int := length / connections

/-- A set of helpers whose folder creation succeeds, for the concrete runs. -/
def demoHelpers : Helpers :=
  { FilenameFromURL := fun _ => "f".toList
    GetValidFolderPath := fun _ => "d".toList
    CreateFolderIfNotExist := fun _ => none
    fatal := fun _ => true
    maxChan := 2 ^ 44 }

/-! ## joiner.go -/

/-- A byte of a file. -/
abbrev Byte := UInt8

/-- The call `HandleError(err)`, a helper that is not among the sources at
hand: `true` when it ends the process. It returns on `nil` (the event loop of
`Start` passes every `nil` it receives to it). -/
def HandleError (h : Helpers) (err : Option GoError) : Bool :=
  match err with
  | none => false
  | some e => h.fatal e

/-- The function `filepath.Base` on a Unix path: the last element of the path,
trailing slashes removed. -/
def filepathBase (path : GoString) : GoString :=
  if path = [] then ['.']
  else
    let last := ((path.reverse.dropWhile (· == '/')).takeWhile (· != '/')).reverse
    if last = [] then ['/'] else last

/-- The loop of `strings.Split s sep` for a non-empty `sep`: `cur` holds the
current piece reversed, `skip` the characters of a found separator that are
still to be passed over. -/
def splitLoop (sep : GoString) : GoString → Nat → GoString → List GoString
  | [], _, cur => [cur.reverse]
  | _ :: cs, skip + 1, cur => splitLoop sep cs skip cur
  | c :: cs, 0, cur =>
    if sep.isPrefixOf (c :: cs) then cur.reverse :: splitLoop sep cs (sep.length - 1) []
    else splitLoop sep cs 0 (c :: cur)

/-- The function `strings.Split` for a non-empty separator. -/
def stringsSplit (s sep : GoString) : List GoString := splitLoop sep s 0 []

/-- The digit loop of `strconv.Atoi`: `none` on a character that is no digit. -/
def parseDecimal : GoString → Nat → Option Nat
  | [], acc => some acc
  | c :: cs, acc => if c.isDigit then parseDecimal cs (acc * 10 + (c.toNat - 48)) else none

/-- The sign that `strconv.Atoi` takes off the front of its argument: whether
the number is negative, and the text after the sign. -/
def splitSign : GoString → Bool × GoString
  | '-' :: ds => (true, ds)
  | '+' :: ds => (false, ds)
  | ds => (false, ds)

/-- The function `strconv.Atoi` where `int` has 64 bits: an optional sign, then
one or more decimal digits, the value in the range of `int`; `none` is a
non-nil error. -/
def strconvAtoi (s : GoString) : Option Int :=
  let signed := splitSign s
  if signed.2 = [] then none
  else
    match parseDecimal signed.2 0 with
    | none => none
    | some n =>
      if signed.1 then (if n ≤ 2 ^ 63 then some (-(n : Int)) else none)
      else (if n < 2 ^ 63 then some (n : Int) else none)

/-- The `less` closure that `JoinFile` hands to `sort.Slice`, on the two
entries compared. -/
def joinLess (fi fj : GoString) : Bool :=
  let partsI := stringsSplit (filepathBase fi) ".part".toList
  let partsJ := stringsSplit (filepathBase fj) ".part".toList
  if partsI.length < 2 || partsJ.length < 2 then decide (fi < fj)
  else
    match strconvAtoi (partsI.getLastD []), strconvAtoi (partsJ.getLastD []) with
    | some numI, some numJ => decide (numI < numJ)
    | _, _ => decide (fi < fj)

/-- The inner loop of the insertion sort of package `sort`: `x` moves left past
every element it is `less` than. The sorted prefix is held last element first. -/
def insertBack {α : Type} (less : α → α → Bool) (x : α) : List α → List α
  | [] => [x]
  | p :: ps => if less x p then p :: insertBack less x ps else x :: p :: ps

/-- The function `sort.Slice` as the insertion sort that package `sort` runs on
a slice of at most 12 elements. On a longer slice `sort.Slice` runs a quicksort
that is not stable: it returns the same list as this insertion sort when `less`
is a strict total order on the elements of the slice (it is transitive and no
two different elements tie), and it may leave elements that tie in another
order. -/
def sortSlice {α : Type} (less : α → α → Bool) (xs : List α) : List α :=
  (xs.foldl (fun sorted x => insertBack less x sorted) []).reverse

/-- The order in which `JoinFile` concatenates `files`: that of `sort.Slice` on
a slice of at most 12 paths, or on a longer slice that `joinLess` orders
strictly. -/
def joinOrder (files : List GoString) : List GoString := sortSlice joinLess files

/-- What opening and reading a segment file gives: the open fails, or the reads
deliver `bytes` and then end with end-of-file (`fail = none`) or with an error. -/
inductive Source where
  | unopenable (e : GoError)
  | readable (bytes : List Byte) (fail : Option GoError)
deriving DecidableEq, Repr

/-- The files `JoinFile` works on: the segment files by path, the content of the
destination before the call (`none`: it does not exist) and the error of
opening the destination. The destination is none of the segment files. -/
structure JoinFiles where
  source : GoString → Source
  outBefore : Option (List Byte)
  outOpenErr : Option GoError

/-- Writing `data` at offset `off` of a file opened without `O_TRUNC` and without
`O_APPEND`: the bytes in place are overwritten, the file grows as needed. -/
def writeAt (content : List Byte) (off : Nat) (data : List Byte) : List Byte :=
  content.take off ++ data ++ content.drop (off + data.length)

/-- The function `copy` of `joiner.go`: how it ends, and the bytes it wrote to
`to`. The results of `io.Copy` are dropped, so a read error is not reported. -/
def copy (h : Helpers) (src : Source) : Returned (Option GoError) × List Byte :=
  match src with
  | .unopenable e =>
    if HandleError h (some e) then (.exit e, []) else (.value (some e), [])
  | .readable bytes _ => (.value none, bytes)

/-- The loop `for _, f := range files` of `JoinFile`, the destination holding
`content` and its write offset being `off`. -/
def joinLoop (h : Helpers) (source : GoString → Source) :
    List GoString → List Byte → Nat → List Byte × Returned (Option GoError)
  | [], content, _ => (content, .value none)
  | f :: fs, content, off =>
    match copy h (source f) with
    | (.exit e, written) => (writeAt content off written, .exit e)
    | (.value (some e), written) => (writeAt content off written, .value (some e))
    | (.value none, written) =>
      joinLoop h source fs (writeAt content off written) (off + written.length)

/-- The function `JoinFile` of `joiner.go`: the content of the destination after
the call (`none`: it does not exist) and how the call ends. The destination is
opened with `O_CREATE|O_WRONLY`: it is created empty when absent and left as it
is when present, and writing starts at offset 0. -/
def JoinFile (h : Helpers) (fs : JoinFiles) (files : List GoString) :
    Option (List Byte) × Returned (Option GoError) :=
  let sorted := joinOrder files
  match fs.outOpenErr with
  | some e => (fs.outBefore, .value (some e))
  | none =>
    let r := joinLoop h fs.source sorted (fs.outBefore.getD []) 0
    (some r.1, r.2)

/-- The value of a string of decimal digits. -/
def decimalValue (ds : GoString) : Nat := ds.foldl (fun acc c => acc * 10 + (c.toNat - 48)) 0

/-- The part number `JoinFile` reads off a path: the integer after the last
`.part` of the base name, `none` when there is no `.part` or `strconv.Atoi`
rejects the text after it. -/
def partNumber (f : GoString) : Option Int :=
  let parts := stringsSplit (filepathBase f) ".part".toList
  if parts.length < 2 then none else strconvAtoi (parts.getLastD [])

/-- The digits after `f.part` in the names of the concrete runs. -/
def demoNumber (f : GoString) : Nat := decimalValue (f.drop 6)

/-! ## http.go -/

/-- The error `strconv.ErrSyntax`. -/
def errSyntax : GoError := .failure "invalid syntax".toList

/-- The error `strconv.ErrRange`. -/
def errRange : GoError := .failure "value out of range".toList

/-- The digit loop of `strconv.ParseUint s 10 64`, `n` being the value read so
far: it stops with a syntax error at a character that is no digit and with a
range error at the digit with which the value leaves `uint64`, whichever comes
first. -/
def parseUintLoop : GoString → Nat → Nat × Option GoError
  | [], n => (n, none)
  | c :: cs, n =>
    if !c.isDigit then (0, some errSyntax)
    else if n ≥ (2 ^ 64 - 1) / 10 + 1 then (2 ^ 64 - 1, some errRange)
    else if n * 10 + (c.toNat - 48) > 2 ^ 64 - 1 then (2 ^ 64 - 1, some errRange)
    else parseUintLoop cs (n * 10 + (c.toNat - 48))

/-- The function `strconv.ParseInt s 10 64`: the value and the error. On a
syntax error the value is 0, on a range error it is the nearest bound. -/
def strconvParseInt (s : GoString) : Int × Option GoError :=
  let signed := splitSign s
  if signed.2 = [] then (0, some errSyntax)
  else
    let un := parseUintLoop signed.2 0
    if un.2 = some errSyntax then (0, some errSyntax)
    else if !signed.1 && un.1 ≥ 2 ^ 63 then (2 ^ 63 - 1, some errRange)
    else if signed.1 && un.1 > 2 ^ 63 then (-2 ^ 63, some errRange)
    else (if signed.1 then -(un.1 : Int) else (un.1 : Int), none)

/-- The call `make(chan string, size)`: it panics when the size is negative or
beyond what the runtime allocates. -/
def makeChan (h : Helpers) (size : Int) : Option GoError :=
  if size < 0 ∨ h.maxChan < size then some (.failure "makechan: size out of range".toList)
  else none

/-- The fields of `HttpDownloader` that are data; the channels are the message
lists of `downloadPart` and `Start`. -/
structure HttpDownloader where
  url : GoString
  file : GoString
  totalParts : Int
  length : Int
  parts : List Part
  resumable : Bool
deriving DecidableEq, Repr

/-- The two headers of the probe response that `NewHttpDownloader` reads, as
`header.Get` returns them: the empty string when the header is absent. -/
structure ProbeHeader where
  contentLength : GoString
  acceptRange : GoString

/-- The function `NewHttpDownloader` of `http.go`, given the header that
`getHeader` fetched. The first channel it makes is `fileChan`, of capacity
`connections`. -/
def NewHttpDownloader (h : Helpers) (header : ProbeHeader) (url : GoString)
    (connections : Int) (parts : List Part) : Returned HttpDownloader :=
  let resumable := true
  let contentLength := header.contentLength
  let acceptRange := header.acceptRange
  let (contentLength, connections) :=
    if contentLength = [] then ("1".toList, (1 : Int)) else (contentLength, connections)
  let (connections, resumable) :=
    if acceptRange = [] then ((1 : Int), false) else (connections, resumable)
  let (length, err) := strconvParseInt contentLength
  match err, HandleError h err with
  | some e, true => .exit e
  | _, _ =>
    let planned :=
      if parts.length = 0 then calculateParts h connections length url else .value parts
    match planned with
    | .exit e => .exit e
    | .value ps =>
      match makeChan h connections with
      | some e => .exit e
      | none =>
        .value
          { url := url, file := h.FilenameFromURL url, totalParts := connections,
            length := length, parts := ps, resumable := resumable }

/-- The function `expectedBytes` of `http.go`. -/
def expectedBytes (part : Part) : Int := wrap64 (wrap64 (part.RangeTo - part.RangeFrom) + 1)

/-- A message on one of the channels of the downloader: `fileChan`, `errorChan`
(a `nil` error is sent too), `stateChan`, `doneChan`. -/
inductive Msg where
  | file (path : GoString)
  | error (err : Option GoError)
  | state (part : Part)
  | done
deriving DecidableEq, Repr

/-- The case of the `select` of `downloadPart` that fires: the signal arrives
after the fetcher has written `written` bytes (and `os.Stat` of the part file
then fails or not), the copy fails, or the copy ends having copied `n` bytes. -/
inductive Race where
  | signal (written : Nat) (statFails : Bool)
  | failed (e : GoError)
  | copied (n : Int)

/-- What one call of `downloadPart` meets: the errors of building the request,
of sending it and of opening the part file, the size of the part file before
the call (`none`: it does not exist), and the case of the `select`. -/
structure PartRun where
  reqErr : Option GoError
  doErr : Option GoError
  openErr : Option GoError
  sizeBefore : Option Nat
  race : Race

/-- The size of the part file once `openPartFile` has opened it: a file that
exists is opened with `O_APPEND` and keeps its bytes, a file that does not
exist is created empty. -/
def openPartFile (sizeBefore : Option Nat) : Nat :=
  match sizeBefore with
  | some n => n
  | none => 0

/-- The messages the `select` of `downloadPart` sends. -/
def downloadSelect (d : HttpDownloader) (i : Int) (part : Part) (run : PartRun) : List Msg :=
  let expected := expectedBytes part
  match run.race with
  | .signal written statFails =>
    let copied : Int := if statFails then 0 else ((openPartFile run.sizeBefore + written : Nat) : Int)
    [.state { URL := d.url, Path := part.Path, RangeFrom := wrap64 (copied + part.RangeFrom),
              RangeTo := part.RangeTo }]
  | .failed e => [.error (some e)]
  | .copied copied =>
    if copied ≠ expected then [.error (some (.sizeMismatch i expected copied))]
    else [.file part.Path]

/-- The method `downloadPart` of `http.go`, as the messages it sends, in order.
After a failed `newRangeRequest` or `client.Do` the call dereferences a nil
pointer right after sending the error, which ends the process. -/
def downloadPart (d : HttpDownloader) (i : Int) (part : Part) (run : PartRun) : List Msg :=
  match run.reqErr with
  | some e => [.error (some e)]
  | none =>
    match run.doErr with
    | some e => [.error none, .error (some e)]
    | none => [.error none, .error none, .error run.openErr] ++ downloadSelect d i part run

/-- The `State` that `Start` saves on interruption. -/
structure State where
  URL : GoString
  Parts : List Part
deriving DecidableEq, Repr

/-- How the event loop of `Start` ends: it saves the state, it calls `JoinFile`
on the completed files and removes the working folder, it finds nothing to
join and removes the working folder, or the process ends on an error. -/
inductive Finish where
  | saved (s : State)
  | joined (files : List GoString) (out : GoString)
  | nothingToJoin
  | exited (e : GoError)
deriving DecidableEq, Repr

/-- The function `isJoinable` of `joiner.go`; `stat` gives the size of a file or
the error of `os.Stat`. After a failed `os.Stat` the call passes the error to
`HandleError` and then dereferences a nil `FileInfo`: the process ends. -/
def isJoinable (stat : GoString → Except GoError Int) (files : List GoString) : Returned Bool :=
  match files with
  | [f] =>
    match stat f with
    | .error e => .exit e
    | .ok size => .value (decide (size ≠ 0))
  | _ => .value true

/-- The variables `files`, `parts` and `interupted` of `Start`. -/
structure LoopState where
  files : List GoString
  parts : List Part
  interupted : Bool

/-- The `for`/`select` loop of `Start` on the messages in the order the loop
receives them; `none` when the messages end before `doneChan` delivers. -/
def eventLoop (h : Helpers) (stat : GoString → Except GoError Int) (d : HttpDownloader) :
    List Msg → LoopState → Option Finish
  | [], _ => none
  | .file file :: ms, st => eventLoop h stat d ms { st with files := st.files ++ [file] }
  | .error err :: ms, st =>
    match err, HandleError h err with
    | some e, true => some (.exited e)
    | _, _ => eventLoop h stat d ms st
  | .state part :: ms, st =>
    eventLoop h stat d ms { st with parts := st.parts ++ [part], interupted := true }
  | .done :: _, st =>
    if st.interupted && d.resumable then some (.saved { URL := d.url, Parts := st.parts })
    else
      match isJoinable stat st.files with
      | .exit e => some (.exited e)
      | .value true => some (.joined st.files (h.FilenameFromURL d.url))
      | .value false => some .nothingToJoin

/-- The method `Start` of `http.go`, on the messages its loop receives. -/
def Start (h : Helpers) (stat : GoString → Except GoError Int) (d : HttpDownloader)
    (msgs : List Msg) : Option Finish :=
  eventLoop h stat d msgs { files := [], parts := [], interupted := false }

/-- The messages received before `doneChan` delivers. -/
def beforeDone (msgs : List Msg) : List Msg := msgs.takeWhile fun m => m ≠ Msg.done

/-- The paths received on `fileChan`, in the order of arrival. -/
def receivedFiles (msgs : List Msg) : List GoString :=
  msgs.filterMap fun m => match m with
    | .file p => some p
    | _ => none

/-- The parts received on `stateChan`, in the order of arrival. -/
def receivedStates (msgs : List Msg) : List Part :=
  msgs.filterMap fun m => match m with
    | .state p => some p
    | _ => none

/-- The bytes the reads of a segment file deliver before they end. -/
def Source.bytes : Source → List Byte
  | .unopenable _ => []
  | .readable bytes _ => bytes

/-- The bytes delivered by the segment files `files`, one file after the other. -/
def delivered (source : GoString → Source) : List GoString → List Byte
  | [] => []
  | f :: fs => (source f).bytes ++ delivered source fs

/-- Two segment files that read to their end: `f.part0` holds the bytes 1, 2
and `f.part1` the byte 3. -/
def demoSource (f : GoString) : Source :=
  if f = "f.part0".toList then .readable [1, 2] none
  else if f = "f.part1".toList then .readable [3] none
  else .unopenable (.failure "no such file".toList)

/-- Two segment files of two bytes each; the read of `f.part0` fails after its
first byte. -/
def brokenSource (f : GoString) : Source :=
  if f = "f.part0".toList then .readable [1] (some (.failure "read error".toList))
  else if f = "f.part1".toList then .readable [3, 4] none
  else .unopenable (.failure "no such file".toList)

/-- A resumable downloader of one 20 byte part, for the concrete runs. -/
def demoDownloader : HttpDownloader :=
  { url := "u".toList, file := "f".toList, totalParts := 1, length := 20,
    parts := [{ URL := "u".toList, Path := "d/f.part0".toList, RangeFrom := 0, RangeTo := 19 }],
    resumable := true }

/-- The checkpoint of the part `[0, 19]` of `demoDownloader` after a first
interruption that left 10 bytes in the part file. -/
def demoCheckpoint : Part :=
  { URL := "u".toList, Path := "d/f.part0".toList, RangeFrom := 10, RangeTo := 19 }

/-- A `stat` under which every file holds 5 bytes. -/
def demoStat (_ : GoString) : Except GoError Int := .ok 5

/-- A list with three numbered entries and one entry without a part number,
for the concrete runs. -/
def demoMixed : List GoString :=
  ["f.part3".toList, "f.partx".toList, "f.part1".toList, "f.part2".toList]

/-- The messages sent by the fetchers that `download` starts, fetcher `i` on
part `i` of the plan meeting `runs[i]`; listed fetcher after fetcher, though the
fetchers run side by side. -/
def fetcherMessages (d : HttpDownloader) : Nat → List Part → List PartRun → List Msg
  | _, [], _ => []
  | _, _ :: _, [] => []
  | i, p :: ps, r :: rs => downloadPart d (i : Int) p r ++ fetcherMessages d (i + 1) ps rs

/-- The method `download` of `http.go`, as the messages it and its fetchers
send: the error of starting the progress bars, the messages of the fetchers,
and, once all fetchers have ended, the all-finished signal. -/
def download (d : HttpDownloader) (poolErr : Option GoError) (runs : List PartRun) : List Msg :=
  .error poolErr :: fetcherMessages d 0 d.parts runs ++ [.done]

/-- A resumable downloader of two parts of 10 bytes, for the concrete runs. -/
def demoPlan : HttpDownloader :=
  { url := "u".toList, file := "f".toList, totalParts := 2, length := 20,
    parts := [{ URL := "u".toList, Path := "d/f.part0".toList, RangeFrom := 0, RangeTo := 9 },
              { URL := "u".toList, Path := "d/f.part1".toList, RangeFrom := 10, RangeTo := 19 }],
    resumable := true }

/-- A fetcher run without errors that copies 10 bytes. -/
def demoRun : PartRun :=
  { reqErr := none, doErr := none, openErr := none, sizeBefore := none, race := .copied 10 }

/-- The messages of a run of `demoPlan` in which both parts complete, the second
before the first, as the event loop receives them. -/
def demoComplete : List Msg :=
  [.error none, .error none, .error none, .error none, .error none, .error none,
   .file "d/f.part1".toList, .error none, .file "d/f.part0".toList, .done]

/-! ## Range planning: proofs -/

theorem wrap64_of_range {x : Int} (h1 : -2 ^ 63 ≤ x) (h2 : x < 2 ^ 63) : wrap64 x = x := by
  unfold wrap64
  rw [Int.emod_eq_of_lt (by omega) (by omega)]
  omega

theorem calculatePartsFrom_ok (h : Helpers) (connections length : Int) (url : GoString)
    (hok : h.CreateFolderIfNotExist (h.GetValidFolderPath url) = none) (n i : Nat) :
    calculatePartsFrom h connections length url n i =
      .value ((List.range' i n).map fun (j : Nat) => partAt h connections length url (j : Int)) := by
  induction n generalizing i with
  | zero => rfl
  | succ n ih =>
    simp only [calculatePartsFrom, hok, ih (i + 1), List.range'_succ, List.map_cons]

theorem calculateParts_ok (h : Helpers) (connections length : Int) (url : GoString)
    (hok : h.CreateFolderIfNotExist (h.GetValidFolderPath url) = none) :
    calculateParts h connections length url =
      .value ((List.range connections.toNat).map fun (j : Nat) => partAt h connections length url (j : Int)) := by
  unfold calculateParts
  rw [calculatePartsFrom_ok h connections length url hok, List.range_eq_range']

theorem chunk_nonneg {N L : Int} (hN : 1 ≤ N) (hL : 1 ≤ L) : 0 ≤ chunk N L :=
  Int.ediv_nonneg (by omega) (by omega)

theorem chunk_mul_le {N L : Int} (hN : 1 ≤ N) : chunk N L * N ≤ L :=
  Int.ediv_mul_le L (by omega)

theorem chunk_mul_index_le {N L : Int} (hN : 1 ≤ N) (hL : 1 ≤ L) {i : Int}
    (hi : i ≤ N) : chunk N L * i ≤ L :=
  le_trans (mul_le_mul_of_nonneg_left hi (chunk_nonneg hN hL)) (chunk_mul_le hN)

theorem chunk_pos {N L : Int} (hN : 1 ≤ N) (hNL : N ≤ L) : 1 ≤ chunk N L := by
  unfold chunk
  have : (1 : Int) = N / N := (Int.ediv_self (by omega)).symm
  rw [this]
  exact Int.ediv_le_ediv (by omega) hNL

theorem div64_eq_chunk {N L : Int} (hN : 1 ≤ N) (hL : 1 ≤ L) (hL' : L < 2 ^ 63) :
    div64 L N = chunk N L := by
  unfold div64 chunk
  have hq : Int.tdiv L N = L / N := Int.tdiv_eq_ediv (by omega) (by omega)
  rw [hq]
  have h0 : 0 ≤ L / N := Int.ediv_nonneg (by omega) (by omega)
  have h1 : L / N ≤ L := Int.ediv_le_self N (by omega)
  exact wrap64_of_range (by omega) (by omega)

/-- The ranges computed by `partAt`, free of machine arithmetic, for inputs in
the range of the planner. -/
theorem partAt_ranges (h : Helpers) {N L : Int} (url : GoString) (hN : 1 ≤ N)
    (hN' : N < 2 ^ 63) (hL : 1 ≤ L) (hL' : L < 2 ^ 63) {i : Nat} (hi : (i : Int) < N) :
    (partAt h N L url i).RangeFrom = chunk N L * i ∧
    (partAt h N L url i).RangeTo =
      if (i : Int) + 1 < N then chunk N L * ((i : Int) + 1) - 1 else L - 1 := by
  have hq := div64_eq_chunk hN hL hL'
  have hq0 := chunk_nonneg hN hL
  have hi0 : (0 : Int) ≤ i := Int.ofNat_nonneg i
  have hA := chunk_mul_index_le hN hL (le_of_lt hi)
  have hB := chunk_mul_index_le hN hL (i := (i : Int) + 1) (by omega)
  have hA0 : 0 ≤ chunk N L * (i : Int) := mul_nonneg hq0 hi0
  have hB0 : 0 ≤ chunk N L * ((i : Int) + 1) := mul_nonneg hq0 (by omega)
  have w1 : wrap64 (N - 1) = N - 1 := wrap64_of_range (by omega) (by omega)
  have w2 : wrap64 ((i : Int) + 1) = (i : Int) + 1 := wrap64_of_range (by omega) (by omega)
  have w3 : wrap64 (L - 1) = L - 1 := wrap64_of_range (by omega) (by omega)
  have w4 : wrap64 (chunk N L * (i : Int)) = chunk N L * (i : Int) :=
    wrap64_of_range (by omega) (by omega)
  have w5 : wrap64 (chunk N L * ((i : Int) + 1)) = chunk N L * ((i : Int) + 1) :=
    wrap64_of_range (by omega) (by omega)
  have w6 : wrap64 (chunk N L * ((i : Int) + 1) - 1) = chunk N L * ((i : Int) + 1) - 1 :=
    wrap64_of_range (by omega) (by omega)
  refine ⟨?_, ?_⟩
  · simp only [partAt, hq, w4]
  · simp only [partAt, hq, w1, w2, w3, w5, w6]
    by_cases hc : (i : Int) + 1 < N
    · have hc' : (i : Int) < N - 1 := by omega
      simp [hc, hc']
    · have hc' : ¬ (i : Int) < N - 1 := by omega
      simp [hc, hc']


theorem plan_getElem_some {α : Type} (f : Nat → α) (n i : Nat) (p : α)
    (hp : ((List.range n).map f)[i]? = some p) : i < n ∧ p = f i := by
  rw [List.getElem?_map] at hp
  by_cases hi : i < n
  · rw [List.getElem?_range hi] at hp
    simp at hp
    exact ⟨hi, hp.symm⟩
  · have : (List.range n)[i]? = none := by
      apply List.getElem?_eq_none
      simp
      omega
    rw [this] at hp
    simp at hp

/-- C1, as stated, fails when there are more connections than bytes: for
`connections = 2` and `length = 1` the first part is the empty range `[0, -1]`
(its `RangeFrom` exceeds its `RangeTo`) and both parts start at byte 0, so the
parts are not strictly ascending. -/
theorem calculateParts_more_connections_than_bytes :
    calculateParts demoHelpers 2 1 "u".toList = .value
      [{ URL := "u".toList, Path := "d/f.part0".toList, RangeFrom := 0, RangeTo := -1 },
       { URL := "u".toList, Path := "d/f.part1".toList, RangeFrom := 0, RangeTo := 0 }] := by
  decide

/-- C1 (amended). For every length `1 ≤ L` and connection count `1 ≤ N` (both
`int64`), `calculateParts` returns exactly `N` parts; the first part starts at
byte 0, every part starts one byte after the end of the part before it, the
starts never decrease, and the last part ends at `L - 1`. When `N ≤ L` every
part moreover has `RangeFrom ≤ RangeTo` and the starts strictly increase. When
`N > L` every part starts at byte 0 and each of the first `N - 1` parts is the
empty range `[0, -1]`. -/
theorem calculateParts_partition (h : Helpers) (N L : Int) (url : GoString)
    (hN : 1 ≤ N) (hN' : N < 2 ^ 63) (hL : 1 ≤ L) (hL' : L < 2 ^ 63)
    (hok : h.CreateFolderIfNotExist (h.GetValidFolderPath url) = none) :
    ∃ ps, calculateParts h N L url = .value ps ∧ (ps.length : Int) = N ∧
      (∀ p, ps[0]? = some p → p.RangeFrom = 0) ∧
      (∀ i p q, ps[i]? = some p → ps[i + 1]? = some q →
        q.RangeFrom = p.RangeTo + 1 ∧ p.RangeFrom ≤ q.RangeFrom) ∧
      (∀ p, ps.getLast? = some p → p.RangeTo = L - 1) ∧
      (N ≤ L → (∀ p ∈ ps, p.RangeFrom ≤ p.RangeTo) ∧
        ∀ i p q, ps[i]? = some p → ps[i + 1]? = some q → p.RangeFrom < q.RangeFrom) ∧
      (L < N → ∀ (i : Nat) p, ps[i]? = some p →
        p.RangeFrom = 0 ∧ ((i : Int) + 1 < N → p.RangeTo = -1)) := by
  refine ⟨_, calculateParts_ok h N L url hok, ?_, ?_, ?_, ?_, ?_, ?_⟩
  · simp only [List.length_map, List.length_range]
    omega
  · intro p hp
    obtain ⟨h0, rfl⟩ := plan_getElem_some _ _ _ _ hp
    have hr := (partAt_ranges h url hN hN' hL hL' (i := 0) (by omega)).1
    simpa using hr
  · intro i p q hp hq
    obtain ⟨hi, rfl⟩ := plan_getElem_some _ _ _ _ hp
    obtain ⟨hi', rfl⟩ := plan_getElem_some _ _ _ _ hq
    have hiN : ((i + 1 : Nat) : Int) < N := by omega
    have hiN' : (i : Int) < N := by omega
    have r1 := partAt_ranges h url hN hN' hL hL' hiN'
    have r2 := partAt_ranges h url hN hN' hL hL' hiN
    have hlt : (i : Int) + 1 < N := by omega
    rw [r2.1, r1.1, r1.2, if_pos hlt]
    push_cast
    have hq0 := chunk_nonneg hN hL
    constructor
    · ring
    · nlinarith
  · intro p hp
    rw [List.getLast?_eq_getElem?] at hp
    obtain ⟨hi, rfl⟩ := plan_getElem_some _ _ _ _ hp
    simp only [List.length_map, List.length_range] at hi ⊢
    have hiN : ((N.toNat - 1 : Nat) : Int) < N := by omega
    have r := (partAt_ranges h url hN hN' hL hL' hiN).2
    rw [r, if_neg (by omega)]
  · intro hNL
    have hq1 := chunk_pos hN hNL
    constructor
    · intro p hp
      rw [List.mem_map] at hp
      obtain ⟨i, hi, rfl⟩ := hp
      rw [List.mem_range] at hi
      have hiN : (i : Int) < N := by omega
      have r := partAt_ranges h url hN hN' hL hL' hiN
      rw [r.1, r.2]
      split
      · nlinarith
      · have := chunk_mul_index_le hN hL (i := (i : Int) + 1) (by omega)
        nlinarith
    · intro i p q hp hq
      obtain ⟨hi, rfl⟩ := plan_getElem_some _ _ _ _ hp
      obtain ⟨hi', rfl⟩ := plan_getElem_some _ _ _ _ hq
      have hiN : ((i + 1 : Nat) : Int) < N := by omega
      have hiN' : (i : Int) < N := by omega
      rw [(partAt_ranges h url hN hN' hL hL' hiN).1, (partAt_ranges h url hN hN' hL hL' hiN').1]
      push_cast
      nlinarith
  · intro hLN i p hp
    obtain ⟨hi, rfl⟩ := plan_getElem_some _ _ _ _ hp
    have hiN : (i : Int) < N := by omega
    have hzero : chunk N L = 0 := Int.ediv_eq_zero_of_lt (by omega) hLN
    have r := partAt_ranges h url hN hN' hL hL' hiN
    rw [r.1, r.2, hzero]
    refine ⟨by simp, fun hlt => ?_⟩
    rw [if_pos hlt]
    simp

/-- The statement of `calculateParts_partition` at 3 connections over 10 bytes
and at 3 connections over 2 bytes. -/
theorem calculateParts_partition_witness :
    (∃ ps, calculateParts demoHelpers 3 10 "u".toList = .value ps ∧ (ps.length : Int) = 3 ∧
      (∀ p, ps[0]? = some p → p.RangeFrom = 0) ∧
      (∀ i p q, ps[i]? = some p → ps[i + 1]? = some q →
        q.RangeFrom = p.RangeTo + 1 ∧ p.RangeFrom ≤ q.RangeFrom) ∧
      (∀ p, ps.getLast? = some p → p.RangeTo = 10 - 1) ∧
      ((3 : Int) ≤ 10 → (∀ p ∈ ps, p.RangeFrom ≤ p.RangeTo) ∧
        ∀ i p q, ps[i]? = some p → ps[i + 1]? = some q → p.RangeFrom < q.RangeFrom) ∧
      ((10 : Int) < 3 → ∀ (i : Nat) p, ps[i]? = some p →
        p.RangeFrom = 0 ∧ ((i : Int) + 1 < 3 → p.RangeTo = -1))) ∧
    (∃ ps, calculateParts demoHelpers 3 2 "u".toList = .value ps ∧ (ps.length : Int) = 3 ∧
      (∀ p, ps[0]? = some p → p.RangeFrom = 0) ∧
      (∀ i p q, ps[i]? = some p → ps[i + 1]? = some q →
        q.RangeFrom = p.RangeTo + 1 ∧ p.RangeFrom ≤ q.RangeFrom) ∧
      (∀ p, ps.getLast? = some p → p.RangeTo = 2 - 1) ∧
      ((3 : Int) ≤ 2 → (∀ p ∈ ps, p.RangeFrom ≤ p.RangeTo) ∧
        ∀ i p q, ps[i]? = some p → ps[i + 1]? = some q → p.RangeFrom < q.RangeFrom) ∧
      ((2 : Int) < 3 → ∀ (i : Nat) p, ps[i]? = some p →
        p.RangeFrom = 0 ∧ ((i : Int) + 1 < 3 → p.RangeTo = -1))) :=
  ⟨calculateParts_partition demoHelpers 3 10 "u".toList (by decide) (by decide) (by decide)
    (by decide) rfl,
   calculateParts_partition demoHelpers 3 2 "u".toList (by decide) (by decide) (by decide)
    (by decide) rfl⟩

theorem sum_sizes_prefix (f : Nat → Int) (c : Int) (m : Nat) (hf : ∀ i, i < m → f i = c)
    (k : Nat) (hk : k ≤ m) : ((List.range k).map f).sum = c * k := by
  induction k with
  | zero => simp
  | succ k ih =>
    rw [List.range_succ, List.map_append, List.sum_append, ih (by omega)]
    simp only [List.map_cons, List.map_nil, List.sum_cons, List.sum_nil, hf k (by omega)]
    push_cast
    ring

/-- C10. For `1 ≤ N ≤ L`, every part returned by `calculateParts` is a
non-empty range inside `[0, L - 1]`; each part but the last holds `L / N`
bytes, the last holds `L / N + L % N` bytes, and the sizes sum to `L`. -/
theorem calculateParts_sizes (h : Helpers) (N L : Int) (url : GoString)
    (hN : 1 ≤ N) (hNL : N ≤ L) (hL' : L < 2 ^ 63)
    (hok : h.CreateFolderIfNotExist (h.GetValidFolderPath url) = none) :
    ∃ ps, calculateParts h N L url = .value ps ∧ (ps.length : Int) = N ∧
      (∀ p ∈ ps, 0 ≤ p.RangeFrom ∧ p.RangeFrom ≤ p.RangeTo ∧ p.RangeTo ≤ L - 1) ∧
      (∀ (i : Nat) p, ps[i]? = some p → (i : Int) + 1 < N →
        p.RangeTo - p.RangeFrom + 1 = L / N) ∧
      (∀ p, ps.getLast? = some p → p.RangeTo - p.RangeFrom + 1 = L / N + L % N) ∧
      (ps.map fun p => p.RangeTo - p.RangeFrom + 1).sum = L := by
  have hL : 1 ≤ L := le_trans hN hNL
  have hN' : N < 2 ^ 63 := lt_of_le_of_lt hNL hL'
  have hq0 := chunk_nonneg hN hL
  have hq1 := chunk_pos hN hNL
  have hdm : L / N * N + L % N = L := Int.ediv_add_emod' L N
  have hsize : ∀ i : Nat, (i : Int) + 1 < N →
      (partAt h N L url i).RangeTo - (partAt h N L url i).RangeFrom + 1 = chunk N L := by
    intro i hi
    have r := partAt_ranges h url hN hN' hL hL' (i := i) (by omega)
    rw [r.1, r.2, if_pos hi]
    ring
  have hlast : ∀ i : Nat, (i : Int) + 1 = N →
      (partAt h N L url i).RangeTo - (partAt h N L url i).RangeFrom + 1 =
        L - chunk N L * i := by
    intro i hi
    have r := partAt_ranges h url hN hN' hL hL' (i := i) (by omega)
    rw [r.1, r.2, if_neg (by omega)]
    ring
  refine ⟨_, calculateParts_ok h N L url hok, ?_, ?_, ?_, ?_, ?_⟩
  · simp only [List.length_map, List.length_range]
    omega
  · intro p hp
    rw [List.mem_map] at hp
    obtain ⟨i, hi, rfl⟩ := hp
    rw [List.mem_range] at hi
    have hiN : (i : Int) < N := by omega
    have r := partAt_ranges h url hN hN' hL hL' hiN
    have hle := chunk_mul_index_le hN hL (i := (i : Int) + 1) (by omega)
    rw [r.1, r.2]
    refine ⟨mul_nonneg hq0 (by omega), ?_, ?_⟩
    · split
      · nlinarith
      · nlinarith
    · split
      · nlinarith
      · exact le_refl _
  · intro i p hp hi
    obtain ⟨_, rfl⟩ := plan_getElem_some _ _ _ _ hp
    exact hsize i hi
  · intro p hp
    rw [List.getLast?_eq_getElem?] at hp
    obtain ⟨hi, rfl⟩ := plan_getElem_some _ _ _ _ hp
    simp only [List.length_map, List.length_range] at hi ⊢
    have hiN : ((N.toNat - 1 : Nat) : Int) + 1 = N := by omega
    rw [hlast _ hiN]
    have hc : chunk N L = L / N := rfl
    have : ((N.toNat - 1 : Nat) : Int) = N - 1 := by omega
    rw [this, hc]
    nlinarith
  · rw [List.map_map]
    obtain ⟨m, hm⟩ : ∃ m : Nat, N.toNat = m + 1 := ⟨N.toNat - 1, by omega⟩
    rw [hm, List.range_succ, List.map_append, List.sum_append,
      sum_sizes_prefix ((fun p : Part => p.RangeTo - p.RangeFrom + 1) ∘
        fun (j : Nat) => partAt h N L url (j : Int)) (chunk N L) m
        (fun i hi => hsize i (by omega)) m (le_refl m)]
    simp only [List.map_cons, List.map_nil, List.sum_cons, List.sum_nil, Function.comp_apply]
    rw [hlast m (by omega)]
    ring

/-- The statement of `calculateParts_sizes` at 3 connections over 10 bytes. -/
theorem calculateParts_sizes_witness :
    ∃ ps, calculateParts demoHelpers 3 10 "u".toList = .value ps ∧ (ps.length : Int) = 3 ∧
      (∀ p ∈ ps, 0 ≤ p.RangeFrom ∧ p.RangeFrom ≤ p.RangeTo ∧ p.RangeTo ≤ 10 - 1) ∧
      (∀ (i : Nat) p, ps[i]? = some p → (i : Int) + 1 < 3 →
        p.RangeTo - p.RangeFrom + 1 = 10 / 3) ∧
      (∀ p, ps.getLast? = some p → p.RangeTo - p.RangeFrom + 1 = 10 / 3 + 10 % 3) ∧
      (ps.map fun p => p.RangeTo - p.RangeFrom + 1).sum = 10 :=
  calculateParts_sizes demoHelpers 3 10 "u".toList (by decide) (by decide) (by decide) rfl


/-! ## Joiner: the order of the segments -/

theorem joinLess_eq (a b : GoString) :
    joinLess a b =
      match partNumber a, partNumber b with
      | some i, some j => decide (i < j)
      | _, _ => decide (a < b) := by
  unfold joinLess partNumber
  by_cases ha : (stringsSplit (filepathBase a) ".part".toList).length < 2
  all_goals by_cases hb : (stringsSplit (filepathBase b) ".part".toList).length < 2
  all_goals simp only [ha, hb, decide_True, decide_False, Bool.or_self, Bool.or_true,
    Bool.or_false, Bool.true_or, if_true, if_false, Bool.false_eq_true]
  all_goals first
    | rfl
    | (cases strconvAtoi ((stringsSplit (filepathBase a) ".part".toList).getLastD []) <;> rfl)

theorem insertBack_perm {α : Type} (less : α → α → Bool) (x : α) (acc : List α) :
    (insertBack less x acc).Perm (x :: acc) := by
  induction acc with
  | nil => exact List.Perm.refl _
  | cons p ps ih =>
    unfold insertBack
    split
    · exact ((List.Perm.cons p ih).trans (List.Perm.swap x p ps))
    · exact List.Perm.refl _

theorem foldl_insertBack_perm {α : Type} (less : α → α → Bool) (xs acc : List α) :
    (xs.foldl (fun sorted x => insertBack less x sorted) acc).Perm (xs ++ acc) := by
  induction xs generalizing acc with
  | nil => exact List.Perm.refl _
  | cons x xs ih =>
    simp only [List.foldl_cons]
    refine (ih _).trans ?_
    refine (List.Perm.append_left xs (insertBack_perm less x acc)).trans ?_
    simp

theorem sortSlice_perm {α : Type} (less : α → α → Bool) (xs : List α) :
    (sortSlice less xs).Perm xs := by
  unfold sortSlice
  refine (List.reverse_perm _).trans ?_
  simpa using foldl_insertBack_perm less xs []

theorem insertBack_sorted {α β : Type} [LinearOrder β] (k : α → β) (less : α → α → Bool)
    (x : α) (acc : List α) (hless : ∀ p ∈ acc, less x p = decide (k x < k p))
    (hs : acc.Pairwise fun a b => k b ≤ k a) :
    (insertBack less x acc).Pairwise fun a b => k b ≤ k a := by
  induction acc with
  | nil => simp [insertBack]
  | cons p ps ih =>
    rw [List.pairwise_cons] at hs
    unfold insertBack
    rw [hless p (List.mem_cons_self p ps)]
    by_cases hlt : k x < k p
    · simp only [hlt, decide_True, if_true]
      rw [List.pairwise_cons]
      refine ⟨?_, ih (fun q hq => hless q (List.mem_cons_of_mem p hq)) hs.2⟩
      intro y hy
      rcases List.mem_cons.mp ((insertBack_perm less x ps).mem_iff.mp hy) with rfl | hy
      · exact le_of_lt hlt
      · exact hs.1 y hy
    · simp only [hlt, decide_False, if_false, Bool.false_eq_true]
      rw [List.pairwise_cons, List.pairwise_cons]
      refine ⟨?_, hs⟩
      intro y hy
      rcases List.mem_cons.mp hy with rfl | hy
      · exact not_lt.mp hlt
      · exact le_trans (hs.1 y hy) (not_lt.mp hlt)

theorem foldl_insertBack_sorted {α β : Type} [LinearOrder β] (k : α → β)
    (less : α → α → Bool) (xs acc : List α)
    (hless : ∀ a ∈ xs ++ acc, ∀ b ∈ xs ++ acc, less a b = decide (k a < k b))
    (hs : acc.Pairwise fun a b => k b ≤ k a) :
    (xs.foldl (fun sorted x => insertBack less x sorted) acc).Pairwise fun a b => k b ≤ k a := by
  induction xs generalizing acc with
  | nil => exact hs
  | cons x xs ih =>
    simp only [List.foldl_cons]
    apply ih
    · intro a ha b hb
      have hmem : ∀ c, c ∈ xs ++ insertBack less x acc → c ∈ x :: xs ++ acc := by
        intro c hc
        rcases List.mem_append.mp hc with hc | hc
        · simp [hc]
        · rcases List.mem_cons.mp ((insertBack_perm less x acc).mem_iff.mp hc) with rfl | hc
          · simp
          · simp [hc]
      exact hless a (hmem a ha) b (hmem b hb)
    · apply insertBack_sorted k less x acc _ hs
      intro p hp
      exact hless x (by simp) p (by simp [hp])

/-- The order `sortSlice` returns when `less` compares the elements of the slice
by a key in a linear order. -/
theorem sortSlice_sorted {α β : Type} [LinearOrder β] (k : α → β) (less : α → α → Bool)
    (xs : List α) (hless : ∀ a ∈ xs, ∀ b ∈ xs, less a b = decide (k a < k b)) :
    (sortSlice less xs).Pairwise fun a b => k a ≤ k b := by
  unfold sortSlice
  rw [List.pairwise_reverse]
  exact foldl_insertBack_sorted k less xs [] (by simpa using hless) List.Pairwise.nil



/-! ### Reading the part number off a name -/

theorem splitLoop_cons_zero (sep : GoString) (c : Char) (cs cur : GoString) :
    splitLoop sep (c :: cs) 0 cur =
      if sep.isPrefixOf (c :: cs) = true then
        cur.reverse :: splitLoop sep cs (sep.length - 1) []
      else splitLoop sep cs 0 (c :: cur) := by
  rw [splitLoop]

theorem splitLoop_no_dot (sep : GoString) (d : Char) (rest : GoString)
    (hsep : sep = d :: rest) (ds : GoString) (hds : ∀ c ∈ ds, c ≠ d) (cur : GoString) :
    splitLoop sep ds 0 cur = [cur.reverse ++ ds] := by
  induction ds generalizing cur with
  | nil => simp [splitLoop]
  | cons c cs ih =>
    have hc : c ≠ d := hds c (List.mem_cons_self c cs)
    have hpre : sep.isPrefixOf (c :: cs) = false := by
      rw [hsep]
      simp [List.isPrefixOf, Ne.symm hc]
    simp only [splitLoop, hpre, Bool.false_eq_true, if_false]
    rw [ih (fun x hx => hds x (List.mem_cons_of_mem c hx))]
    simp

theorem dotPart_no_match (c : Char) (r ds : GoString) (hr : r.length < 4) :
    (".part".toList).isPrefixOf (c :: (r ++ ".part".toList ++ ds)) = false := by
  match r, hr with
  | [], _ => simp [List.isPrefixOf]
  | [_], _ => simp [List.isPrefixOf]
  | [_, _], _ => simp [List.isPrefixOf]
  | [_, _, _], _ => simp [List.isPrefixOf]

theorem splitLoop_suffix (ds : GoString) (hds : ∀ c ∈ ds, c ≠ '.') (rest : GoString) :
    ∀ (skip : Nat) (cur : GoString), skip ≤ rest.length →
      (splitLoop ".part".toList (rest ++ ".part".toList ++ ds) skip cur).getLastD [] = ds ∧
      2 ≤ (splitLoop ".part".toList (rest ++ ".part".toList ++ ds) skip cur).length := by
  induction rest with
  | nil =>
    intro skip cur hskip
    have h0 : skip = 0 := by simpa using hskip
    subst h0
    have hnd := splitLoop_no_dot ".part".toList '.' "part".toList rfl ds hds []
    have : splitLoop ".part".toList ([] ++ ".part".toList ++ ds) 0 cur =
        [cur.reverse, ds] := by
      simp only [List.nil_append]
      show splitLoop ".part".toList ('.' :: 'p' :: 'a' :: 'r' :: 't' :: ds) 0 cur = _
      have hpre : (".part".toList).isPrefixOf ('.' :: 'p' :: 'a' :: 'r' :: 't' :: ds) = true := by
        simp [List.isPrefixOf]
      simp only [splitLoop, hpre, if_true]
      show cur.reverse :: splitLoop ".part".toList ds 0 [] = _
      rw [hnd]
      simp
    rw [this]
    simp
  | cons c r ih =>
    intro skip cur hskip
    cases skip with
    | succ k =>
      have hk : k ≤ r.length := by simpa using hskip
      simpa [splitLoop] using ih k cur hk
    | zero =>
      by_cases hpre : (".part".toList).isPrefixOf (c :: (r ++ ".part".toList ++ ds)) = true
      · have hlen : 4 ≤ r.length := by
          by_contra hlt
          have := dotPart_no_match c r ds (by omega)
          rw [this] at hpre
          exact Bool.false_ne_true hpre
        have hstep : splitLoop ".part".toList (c :: r ++ ".part".toList ++ ds) 0 cur =
            cur.reverse :: splitLoop ".part".toList (r ++ ".part".toList ++ ds) 4 [] := by
          show splitLoop ".part".toList (c :: (r ++ ".part".toList ++ ds)) 0 cur = _
          rw [splitLoop_cons_zero]
          exact if_pos hpre
        rw [hstep]
        obtain ⟨h1, h2⟩ := ih 4 [] hlen
        refine ⟨?_, by rw [List.length_cons]; omega⟩
        cases hl : splitLoop ".part".toList (r ++ ".part".toList ++ ds) 4 [] with
        | nil => rw [hl] at h2; simp at h2
        | cons y ys =>
          rw [hl] at h1
          simpa [List.getLastD] using h1
      · have hstep : splitLoop ".part".toList (c :: r ++ ".part".toList ++ ds) 0 cur =
            splitLoop ".part".toList (r ++ ".part".toList ++ ds) 0 (c :: cur) := by
          show splitLoop ".part".toList (c :: (r ++ ".part".toList ++ ds)) 0 cur = _
          rw [splitLoop_cons_zero]
          exact if_neg hpre
        rw [hstep]
        exact ih 0 (c :: cur) (Nat.zero_le _)

theorem parseDecimal_digits (ds : GoString) (hds : ∀ c ∈ ds, c.isDigit = true) (acc : Nat) :
    parseDecimal ds acc = some (ds.foldl (fun a c => a * 10 + (c.toNat - 48)) acc) := by
  induction ds generalizing acc with
  | nil => rfl
  | cons c cs ih =>
    simp only [parseDecimal, hds c (List.mem_cons_self c cs), if_true, List.foldl_cons]
    exact ih (fun x hx => hds x (List.mem_cons_of_mem c hx)) _

theorem splitSign_digit (c : Char) (cs : GoString) (hc : c.isDigit = true) :
    splitSign (c :: cs) = (false, c :: cs) := by
  have h1 : c ≠ '-' := by
    rintro rfl
    exact absurd hc (by decide)
  have h2 : c ≠ '+' := by
    rintro rfl
    exact absurd hc (by decide)
  unfold splitSign
  split
  · next h => exact absurd (List.cons.inj h).1 h1
  · next h => exact absurd (List.cons.inj h).1 h2
  · rfl

theorem strconvAtoi_digits (ds : GoString) (hne : ds ≠ []) (hds : ∀ c ∈ ds, c.isDigit = true)
    (hrange : decimalValue ds < 2 ^ 63) : strconvAtoi ds = some (decimalValue ds : Int) := by
  have hsign : splitSign ds = (false, ds) := by
    cases ds with
    | nil => exact absurd rfl hne
    | cons c cs => exact splitSign_digit c cs (hds c (List.mem_cons_self c cs))
  have hval : ds.foldl (fun a c => a * 10 + (c.toNat - 48)) 0 = decimalValue ds := rfl
  unfold strconvAtoi
  simp only [hsign, hne, if_false, parseDecimal_digits ds hds 0, hval, hrange, if_true,
    Bool.false_eq_true]

/-- The part number of a path whose base name is `<name>.part<k>`, `k` written
in decimal digits and below `2 ^ 63`. -/
theorem partNumber_of_form (f name ds : GoString)
    (hbase : filepathBase f = name ++ ".part".toList ++ ds) (hne : ds ≠ [])
    (hds : ∀ c ∈ ds, c.isDigit = true) (hrange : decimalValue ds < 2 ^ 63) :
    partNumber f = some (decimalValue ds : Int) := by
  have hdot : ∀ c ∈ ds, c ≠ '.' := by
    intro c hc hdot
    have := hds c hc
    rw [hdot] at this
    exact absurd this (by decide)
  obtain ⟨h1, h2⟩ := splitLoop_suffix ds hdot name 0 [] (Nat.zero_le _)
  unfold partNumber stringsSplit
  rw [hbase]
  simp only [h1, not_lt.mpr h2, if_false]
  exact strconvAtoi_digits ds hne hds hrange

theorem joinLess_of_partNumber (a b : GoString) (i j : Nat)
    (ha : partNumber a = some (i : Int)) (hb : partNumber b = some (j : Int)) :
    joinLess a b = decide (i < j) := by
  rw [joinLess_eq, ha, hb]
  simp

/-- C3, as stated, fails for part numbers beyond the range of `int`:
`strconv.Atoi` rejects both `10000000000000000000` and `9223372036854775808`,
the comparison falls back to the order of the strings, and the file with the
larger number comes first. -/
theorem JoinFile_order_beyond_int_range :
    joinOrder ["f.part9223372036854775808".toList, "f.part10000000000000000000".toList] =
      ["f.part10000000000000000000".toList, "f.part9223372036854775808".toList] ∧
    demoNumber "f.part10000000000000000000".toList = 10000000000000000000 ∧
    demoNumber "f.part9223372036854775808".toList = 9223372036854775808 := by
  decide

/-- C3 (amended). For every list of paths whose base names have the form
`<name>.part<k>`, `k` in decimal digits, below `2 ^ 63` and distinct, the order
in which `JoinFile` concatenates them is a permutation of the input that is
strictly ascending in `k`. -/
theorem JoinFile_order_by_part_number (files : List GoString) (num : GoString → Nat)
    (hform : ∀ f ∈ files, ∃ name ds, filepathBase f = name ++ ".part".toList ++ ds ∧
      ds ≠ [] ∧ (∀ c ∈ ds, c.isDigit = true) ∧ decimalValue ds = num f ∧ num f < 2 ^ 63)
    (hdistinct : (files.map num).Nodup) :
    (joinOrder files).Perm files ∧ ((joinOrder files).map num).Sorted (· < ·) := by
  have hnum : ∀ f ∈ files, partNumber f = some (num f : Int) := by
    intro f hf
    obtain ⟨name, ds, hbase, hne, hds, hval, hrange⟩ := hform f hf
    rw [← hval] at hrange ⊢
    exact partNumber_of_form f name ds hbase hne hds hrange
  have hperm : (joinOrder files).Perm files := sortSlice_perm joinLess files
  have hle : (joinOrder files).Pairwise fun a b => num a ≤ num b :=
    sortSlice_sorted num joinLess files fun a ha b hb =>
      joinLess_of_partNumber a b (num a) (num b) (hnum a ha) (hnum b hb)
  have hnodup : ((joinOrder files).map num).Nodup :=
    ((hperm.map num).nodup_iff).mpr hdistinct
  refine ⟨hperm, ?_⟩
  unfold List.Sorted
  have hle' : ((joinOrder files).map num).Pairwise (· ≤ ·) := by
    rw [List.pairwise_map]
    exact hle
  exact (hle'.and hnodup).imp fun h => lt_of_le_of_ne h.1 h.2

/-- The statement of `JoinFile_order_by_part_number` at the suffixes
`[part10, part2, part1]`, which are ordered `[part1, part2, part10]`. -/
theorem JoinFile_order_by_part_number_witness :
    ((joinOrder ["f.part10".toList, "f.part2".toList, "f.part1".toList]).Perm
        ["f.part10".toList, "f.part2".toList, "f.part1".toList] ∧
      ((joinOrder ["f.part10".toList, "f.part2".toList, "f.part1".toList]).map
        demoNumber).Sorted (· < ·)) ∧
    joinOrder ["f.part10".toList, "f.part2".toList, "f.part1".toList] =
      ["f.part1".toList, "f.part2".toList, "f.part10".toList] :=
  ⟨JoinFile_order_by_part_number ["f.part10".toList, "f.part2".toList, "f.part1".toList]
    demoNumber
    (by
      intro f hf
      simp only [List.mem_cons, List.mem_singleton, List.not_mem_nil, or_false] at hf
      rcases hf with rfl | rfl | rfl
      · exact ⟨"f".toList, "10".toList, by decide, by decide, by decide, by decide, by decide⟩
      · exact ⟨"f".toList, "2".toList, by decide, by decide, by decide, by decide, by decide⟩
      · exact ⟨"f".toList, "1".toList, by decide, by decide, by decide, by decide, by decide⟩)
    (by decide),
   by decide⟩

theorem joinLess_lexical_of_agree (files : List GoString)
    (hagree : ∀ a ∈ files, ∀ b ∈ files, ∀ i j : Int,
      partNumber a = some i → partNumber b = some j → (i < j ↔ a < b)) :
    ∀ a ∈ files, ∀ b ∈ files, joinLess a b = decide (a < b) := by
  intro a ha b hb
  rw [joinLess_eq]
  cases hpa : partNumber a with
  | none => rfl
  | some i =>
    cases hpb : partNumber b with
    | none => rfl
    | some j => exact decide_eq_decide.mpr (hagree a ha b hb i j hpa hpb)

theorem joinOrder_lexical (files : List GoString)
    (hagree : ∀ a ∈ files, ∀ b ∈ files, ∀ i j : Int,
      partNumber a = some i → partNumber b = some j → (i < j ↔ a < b)) :
    (joinOrder files).Sorted (· ≤ ·) :=
  sortSlice_sorted id joinLess files (joinLess_lexical_of_agree files hagree)

/-- C6, as stated, fails: the fall back to the order of the strings is taken per
comparison, not for the whole list. With `y` (no `.part`) in the list,
`x.part2` is still put before `x.part10`, which is not the lexical order; and
with `f.part1x` in the list the result depends on the arrangement of the input. -/
theorem JoinFile_order_mixed_not_lexical :
    partNumber "y".toList = none ∧
    joinOrder ["x.part10".toList, "x.part2".toList, "y".toList] =
      ["x.part2".toList, "x.part10".toList, "y".toList] ∧
    "x.part10".toList < "x.part2".toList ∧
    partNumber "f.part1x".toList = none ∧
    joinOrder ["f.part2".toList, "f.part10".toList, "f.part1x".toList] =
      ["f.part2".toList, "f.part10".toList, "f.part1x".toList] ∧
    joinOrder ["f.part1x".toList, "f.part2".toList, "f.part10".toList] =
      ["f.part1x".toList, "f.part2".toList, "f.part10".toList] := by
  decide

/-- C6 (amended). A comparison in which one of the two entries has no parseable
part number is decided by the order of the two paths as strings; two entries
that both have a parseable part number are compared by their numbers. For every
list in which the numbers of any two numbered entries stand in the same order
as their paths, `JoinFile` concatenates the files in ascending lexical order of
their paths, the same order for every arrangement of the list. -/
theorem JoinFile_order_lexical_fallback (files : List GoString)
    (hagree : ∀ a ∈ files, ∀ b ∈ files, ∀ i j : Int,
      partNumber a = some i → partNumber b = some j → (i < j ↔ a < b)) :
    (∀ a b : GoString, partNumber a = none ∨ partNumber b = none →
      joinLess a b = decide (a < b)) ∧
    (∀ (a b : GoString) (i j : Int), partNumber a = some i → partNumber b = some j →
      joinLess a b = decide (i < j)) ∧
    (joinOrder files).Perm files ∧ (joinOrder files).Sorted (· ≤ ·) ∧
    ∀ files' : List GoString, files'.Perm files → joinOrder files' = joinOrder files := by
  refine ⟨?_, ?_, sortSlice_perm joinLess files, joinOrder_lexical files hagree, ?_⟩
  · intro a b hab
    rw [joinLess_eq]
    rcases hab with h | h
    · rw [h]
    · rw [h]
      cases partNumber a <;> rfl
  · intro a b i j ha hb
    rw [joinLess_eq, ha, hb]
  · intro files' hperm
    have hagree' : ∀ a ∈ files', ∀ b ∈ files', ∀ i j : Int,
        partNumber a = some i → partNumber b = some j → (i < j ↔ a < b) :=
      fun a ha b hb => hagree a (hperm.mem_iff.mp ha) b (hperm.mem_iff.mp hb)
    have hp : (joinOrder files').Perm (joinOrder files) :=
      ((sortSlice_perm joinLess files').trans hperm).trans (sortSlice_perm joinLess files).symm
    exact List.eq_of_perm_of_sorted hp (joinOrder_lexical files' hagree')
      (joinOrder_lexical files hagree)

/-- The statement of `JoinFile_order_lexical_fallback` at the list
`[f.part3, f.partx, f.part1, f.part2]`, which is ordered
`[f.part1, f.part2, f.part3, f.partx]`. -/
theorem JoinFile_order_lexical_fallback_witness :
    ((∀ a b : GoString, partNumber a = none ∨ partNumber b = none →
        joinLess a b = decide (a < b)) ∧
      (∀ (a b : GoString) (i j : Int), partNumber a = some i → partNumber b = some j →
        joinLess a b = decide (i < j)) ∧
      (joinOrder demoMixed).Perm demoMixed ∧ (joinOrder demoMixed).Sorted (· ≤ ·) ∧
      ∀ files' : List GoString, files'.Perm demoMixed →
        joinOrder files' = joinOrder demoMixed) ∧
    joinOrder demoMixed =
      ["f.part1".toList, "f.part2".toList, "f.part3".toList, "f.partx".toList] :=
  ⟨JoinFile_order_lexical_fallback demoMixed
    (by
      intro a ha b hb i j hpa hpb
      simp only [demoMixed, List.mem_cons, List.mem_singleton, List.not_mem_nil,
        or_false] at ha hb
      have h3 : partNumber "f.part3".toList = some 3 := by decide
      have hx : partNumber "f.partx".toList = none := by decide
      have h1 : partNumber "f.part1".toList = some 1 := by decide
      have h2 : partNumber "f.part2".toList = some 2 := by decide
      rcases ha with rfl | rfl | rfl | rfl <;> rcases hb with rfl | rfl | rfl | rfl <;>
        simp only [h3, hx, h1, h2, Option.some.injEq] at hpa hpb <;>
        first
          | exact absurd hpa (by simp)
          | exact absurd hpb (by simp)
          | (subst hpa; subst hpb; decide)),
   by decide⟩

/-! ## Joiner: the content of the destination -/

theorem writeAt_zero (content data : List Byte) :
    writeAt content 0 data = data ++ content.drop data.length := by
  simp [writeAt]

theorem length_writeAt (content : List Byte) (off : Nat) (data : List Byte)
    (hoff : off ≤ content.length) : off + data.length ≤ (writeAt content off data).length := by
  simp only [writeAt, List.length_append, List.length_take, List.length_drop]
  omega

theorem writeAt_writeAt (content : List Byte) (off : Nat) (w1 w2 : List Byte)
    (hoff : off ≤ content.length) :
    writeAt (writeAt content off w1) (off + w1.length) w2 = writeAt content off (w1 ++ w2) := by
  have hlen : (content.take off ++ w1).length = off + w1.length := by
    simp only [List.length_append, List.length_take]
    omega
  have h1 : (writeAt content off w1).take (off + w1.length) = content.take off ++ w1 := by
    unfold writeAt
    rw [← hlen, List.take_left']
    rfl
  have h2 : (writeAt content off w1).drop (off + w1.length + w2.length) =
      content.drop (off + (w1 ++ w2).length) := by
    unfold writeAt
    rw [show off + w1.length + w2.length = (content.take off ++ w1).length + w2.length by
      rw [hlen], List.drop_append, List.drop_drop, List.length_append]
    congr 1
    omega
  show (writeAt content off w1).take (off + w1.length) ++ w2 ++
      (writeAt content off w1).drop (off + w1.length + w2.length) = _
  rw [h1, h2]
  simp [writeAt]

theorem joinLoop_all_readable (h : Helpers) (source : GoString → Source)
    (files : List GoString) (hread : ∀ f ∈ files, ∃ b e, source f = .readable b e) :
    ∀ (content : List Byte) (off : Nat), off ≤ content.length →
      joinLoop h source files content off =
        (writeAt content off (delivered source files), .value none) := by
  induction files with
  | nil =>
    intro content off _
    simp [joinLoop, delivered, writeAt]
  | cons f fs ih =>
    intro content off hoff
    obtain ⟨b, e, hf⟩ := hread f (List.mem_cons_self f fs)
    have hstep : joinLoop h source (f :: fs) content off =
        joinLoop h source fs (writeAt content off b) (off + b.length) := by
      simp [joinLoop, copy, hf]
    rw [hstep, ih (fun g hg => hread g (List.mem_cons_of_mem f hg)) _ _
      (length_writeAt content off b hoff), writeAt_writeAt content off b _ hoff]
    simp [delivered, hf, Source.bytes]

/-- The destination after `JoinFile` on at most 12 segment files, when it can be
opened and every segment file can be opened: the bytes delivered by the
segments in join order, followed by the bytes of the earlier destination beyond
that length. -/
theorem JoinFile_destination (h : Helpers) (fs : JoinFiles) (files : List GoString)
    (_hshort : files.length ≤ 12) (hopen : fs.outOpenErr = none)
    (hread : ∀ f ∈ files, ∃ b e, fs.source f = .readable b e) :
    JoinFile h fs files =
      (some (delivered fs.source (joinOrder files) ++
        (fs.outBefore.getD []).drop (delivered fs.source (joinOrder files)).length),
       .value none) := by
  have hread' : ∀ f ∈ joinOrder files, ∃ b e, fs.source f = .readable b e :=
    fun f hf => hread f ((sortSlice_perm joinLess files).mem_iff.mp hf)
  unfold JoinFile
  simp only [hopen]
  rw [joinLoop_all_readable h fs.source (joinOrder files) hread' _ 0 (Nat.zero_le _),
    writeAt_zero]

/-- C2, on a destination that exists and is longer than the joined segments: the
segments `f.part0 = [1, 2]` and `f.part1 = [3]` are joined into a destination
that held `[9, 9, 9, 9, 9]`; `JoinFile` returns nil and the destination holds
`[1, 2, 3, 9, 9]`, the last two bytes being those of the earlier file. -/
theorem JoinFile_keeps_tail_of_earlier_destination :
    JoinFile demoHelpers
      { source := demoSource, outBefore := some [9, 9, 9, 9, 9], outOpenErr := none }
      ["f.part1".toList, "f.part0".toList] = (some [1, 2, 3, 9, 9], .value none) := by
  decide

/-- C7, on a segment whose read fails part-way: the read of `f.part0` fails after
one byte, yet `JoinFile` returns nil and has written the bytes of `f.part1`
after it. -/
theorem JoinFile_ignores_read_error :
    JoinFile demoHelpers
      { source := brokenSource, outBefore := none, outOpenErr := none }
      ["f.part0".toList, "f.part1".toList] = (some [1, 3, 4], .value none) := by
  decide


/-! ## The downloader -/

/-- C5, on a probe response with `Accept-Ranges` and without `Content-Length`:
the downloader has one part and `totalParts = 1`, and `resumable` is true. -/
theorem NewHttpDownloader_without_content_length :
    NewHttpDownloader demoHelpers { contentLength := [], acceptRange := "bytes".toList }
      "u".toList 4 [] = .value
      { url := "u".toList, file := "f".toList, totalParts := 1, length := 1,
        parts := [{ URL := "u".toList, Path := "d/f.part0".toList, RangeFrom := 0,
                    RangeTo := 0 }],
        resumable := true } := by
  decide

/-- C4, on a checkpoint that is resumed: the part `[10, 19]` is the rest of the
planned part `[0, 19]`, its file holds the 10 bytes of the first run; the
signal arrives after this run has written 3 bytes. The part sent on `stateChan`
starts at 10 + 13 = 23, not at 10 + 3 = 13. -/
theorem downloadPart_resumed_checkpoint :
    downloadPart demoDownloader 0 demoCheckpoint
      { reqErr := none, doErr := none, openErr := none, sizeBefore := some 10,
        race := .signal 3 false } =
    [.error none, .error none, .error none,
     .state { URL := "u".toList, Path := "d/f.part0".toList, RangeFrom := 23, RangeTo := 19 }] := by
  decide

/-- The checkpoint of a part whose file did not exist before the call: it starts
`written` bytes after the start of the part. -/
theorem downloadPart_fresh_checkpoint (d : HttpDownloader) (i : Int) (part : Part)
    (written : Nat) (hfrom : 0 ≤ part.RangeFrom)
    (hsum : (written : Int) + part.RangeFrom < 2 ^ 63) :
    downloadPart d i part
      { reqErr := none, doErr := none, openErr := none, sizeBefore := none,
        race := .signal written false } =
    [.error none, .error none, .error none,
     .state { URL := d.url, Path := part.Path,
              RangeFrom := part.RangeFrom + written, RangeTo := part.RangeTo }] := by
  have hw : wrap64 ((written : Int) + part.RangeFrom) = part.RangeFrom + written := by
    rw [wrap64_of_range (by omega) hsum]
    ring
  simp [downloadPart, downloadSelect, openPartFile, hw]

theorem expectedBytes_eq (part : Part) (hfrom : 0 ≤ part.RangeFrom)
    (hfrom' : part.RangeFrom < 2 ^ 63) (hto : -1 ≤ part.RangeTo) (hto' : part.RangeTo < 2 ^ 63) :
    (part.RangeTo - part.RangeFrom + 1 < 2 ^ 63 ∧
      expectedBytes part = part.RangeTo - part.RangeFrom + 1) ∨
    (part.RangeTo - part.RangeFrom + 1 = 2 ^ 63 ∧ expectedBytes part = -2 ^ 63) := by
  have w1 : wrap64 (part.RangeTo - part.RangeFrom) = part.RangeTo - part.RangeFrom :=
    wrap64_of_range (by omega) (by omega)
  unfold expectedBytes
  rw [w1]
  by_cases hlt : part.RangeTo - part.RangeFrom + 1 < 2 ^ 63
  · exact Or.inl ⟨hlt, wrap64_of_range (by omega) hlt⟩
  · have heq : part.RangeTo - part.RangeFrom + 1 = 2 ^ 63 := by omega
    refine Or.inr ⟨heq, ?_⟩
    rw [heq]
    decide

/-- C9. When the request and the response succeed and the copy ends without an
error having copied `c` bytes, `downloadPart` sends `part.Path` on `fileChan`
if and only if `c = RangeTo - RangeFrom + 1`; for every other `c` it sends the
size mismatch error on `errorChan` and nothing on `fileChan`. -/
theorem downloadPart_completed_iff (d : HttpDownloader) (i : Int) (part : Part)
    (run : PartRun) (c : Int) (hreq : run.reqErr = none) (hdo : run.doErr = none)
    (hrace : run.race = .copied c) (hfrom : 0 ≤ part.RangeFrom)
    (hfrom' : part.RangeFrom < 2 ^ 63) (hto : -1 ≤ part.RangeTo)
    (hto' : part.RangeTo < 2 ^ 63) (hc : 0 ≤ c) (hc' : c < 2 ^ 63) :
    (Msg.file part.Path ∈ downloadPart d i part run ↔
      c = part.RangeTo - part.RangeFrom + 1) ∧
    (c ≠ part.RangeTo - part.RangeFrom + 1 →
      Msg.error (some (.sizeMismatch i (expectedBytes part) c)) ∈ downloadPart d i part run ∧
      ∀ p, Msg.file p ∉ downloadPart d i part run) := by
  have hiff : c = expectedBytes part ↔ c = part.RangeTo - part.RangeFrom + 1 := by
    rcases expectedBytes_eq part hfrom hfrom' hto hto' with ⟨_, he⟩ | ⟨h63, he⟩
    · rw [he]
    · rw [he, h63]
      constructor <;> intro h <;> omega
  by_cases hce : c = expectedBytes part
  · have hmsgs : downloadPart d i part run =
        [.error none, .error none, .error run.openErr, .file part.Path] := by
      simp [downloadPart, downloadSelect, hreq, hdo, hrace, hce]
    rw [hmsgs]
    refine ⟨⟨fun _ => hiff.mp hce, fun _ => by simp⟩, fun hne => absurd (hiff.mp hce) hne⟩
  · have hmsgs : downloadPart d i part run =
        [.error none, .error none, .error run.openErr,
         .error (some (.sizeMismatch i (expectedBytes part) c))] := by
      simp [downloadPart, downloadSelect, hreq, hdo, hrace, hce]
    rw [hmsgs]
    refine ⟨⟨fun hmem => by simp at hmem, fun h => absurd (hiff.mpr h) hce⟩, fun _ => ?_⟩
    exact ⟨by simp, fun p hp => by simp at hp⟩

/-- The statement of `downloadPart_completed_iff` at the part `[10, 19]` and a
copy of 9 bytes, one byte short. -/
theorem downloadPart_completed_iff_witness :
    (Msg.file demoCheckpoint.Path ∈ downloadPart demoDownloader 0 demoCheckpoint
        { reqErr := none, doErr := none, openErr := none, sizeBefore := none,
          race := .copied 9 } ↔
      (9 : Int) = demoCheckpoint.RangeTo - demoCheckpoint.RangeFrom + 1) ∧
    ((9 : Int) ≠ demoCheckpoint.RangeTo - demoCheckpoint.RangeFrom + 1 →
      Msg.error (some (.sizeMismatch 0 (expectedBytes demoCheckpoint) 9)) ∈
        downloadPart demoDownloader 0 demoCheckpoint
          { reqErr := none, doErr := none, openErr := none, sizeBefore := none,
            race := .copied 9 } ∧
      ∀ p, Msg.file p ∉ downloadPart demoDownloader 0 demoCheckpoint
        { reqErr := none, doErr := none, openErr := none, sizeBefore := none,
          race := .copied 9 }) :=
  downloadPart_completed_iff demoDownloader 0 demoCheckpoint
    { reqErr := none, doErr := none, openErr := none, sizeBefore := none, race := .copied 9 }
    9 rfl rfl rfl (by decide) (by decide) (by decide) (by decide) (by decide) (by decide)


/-! ## The event loop of `Start` -/

theorem eventLoop_joined (h : Helpers) (stat : GoString → Except GoError Int)
    (d : HttpDownloader) (msgs : List Msg) :
    ∀ (st : LoopState) (files : List GoString) (out : GoString),
      eventLoop h stat d msgs st = some (.joined files out) →
      (d.resumable = false ∨
        (st.interupted = false ∧ receivedStates (beforeDone msgs) = [])) ∧
      files = st.files ++ receivedFiles (beforeDone msgs) ∧
      out = h.FilenameFromURL d.url := by
  induction msgs with
  | nil =>
    intro st files out hrun
    simp [eventLoop] at hrun
  | cons m ms ih =>
    intro st files out hrun
    cases m with
    | file p =>
      obtain ⟨h1, h2, h3⟩ := ih _ files out (by simpa [eventLoop] using hrun)
      refine ⟨?_, ?_, h3⟩
      · simpa [beforeDone, receivedStates] using h1
      · simpa [beforeDone, receivedFiles] using h2
    | error err =>
      have hnext : eventLoop h stat d ms st = some (.joined files out) := by
        cases err with
        | none => simpa [eventLoop] using hrun
        | some e =>
          cases hf : HandleError h (some e) with
          | true => simp [eventLoop, hf] at hrun
          | false => simpa [eventLoop, hf] using hrun
      obtain ⟨h1, h2, h3⟩ := ih _ files out hnext
      refine ⟨?_, ?_, h3⟩
      · simpa [beforeDone, receivedStates] using h1
      · simpa [beforeDone, receivedFiles] using h2
    | state p =>
      obtain ⟨h1, h2, h3⟩ := ih _ files out (by simpa [eventLoop] using hrun)
      refine ⟨?_, ?_, h3⟩
      · rcases h1 with h1 | ⟨h1, _⟩
        · exact Or.inl h1
        · simp at h1
      · simpa [beforeDone, receivedFiles] using h2
    | done =>
      simp only [eventLoop] at hrun
      by_cases hsave : (st.interupted && d.resumable) = true
      · simp [hsave] at hrun
      · simp only [hsave, Bool.false_eq_true, if_false] at hrun
        have hcase : d.resumable = false ∨ st.interupted = false := by
          cases hr : d.resumable
          · exact Or.inl rfl
          · cases hi : st.interupted
            · exact Or.inr rfl
            · simp [hr, hi] at hsave
        cases hj : isJoinable stat st.files with
        | exit e => simp [hj] at hrun
        | value b =>
          cases b with
          | false => simp [hj] at hrun
          | true =>
            simp only [hj, Option.some.injEq, Finish.joined.injEq] at hrun
            refine ⟨?_, ?_, hrun.2.symm⟩
            · rcases hcase with hc | hc
              · exact Or.inl hc
              · exact Or.inr ⟨hc, by simp [beforeDone, receivedStates]⟩
            · simp [beforeDone, receivedFiles, hrun.1]

theorem eventLoop_saved (h : Helpers) (stat : GoString → Except GoError Int)
    (d : HttpDownloader) (hres : d.resumable = true) (msgs : List Msg) :
    ∀ (st : LoopState), Msg.done ∈ msgs →
      (∀ e, Msg.error (some e) ∈ beforeDone msgs → h.fatal e = false) →
      (st.interupted = true ∨ receivedStates (beforeDone msgs) ≠ []) →
      eventLoop h stat d msgs st =
        some (.saved { URL := d.url, Parts := st.parts ++ receivedStates (beforeDone msgs) }) := by
  induction msgs with
  | nil =>
    intro st hdone
    simp at hdone
  | cons m ms ih =>
    intro st hdone hfatal hint
    cases m with
    | file p =>
      have hd : Msg.done ∈ ms := by simpa using hdone
      have := ih { st with files := st.files ++ [p] } hd
        (fun e he => hfatal e (by simp [beforeDone] at he ⊢; exact he))
        (by simpa [beforeDone, receivedStates] using hint)
      simpa [eventLoop, beforeDone, receivedStates] using this
    | error err =>
      have hd : Msg.done ∈ ms := by simpa using hdone
      have hnext := ih st hd
        (fun e he => hfatal e (by simp [beforeDone] at he ⊢; exact Or.inr he))
        (by simpa [beforeDone, receivedStates] using hint)
      have hstep : eventLoop h stat d (Msg.error err :: ms) st = eventLoop h stat d ms st := by
        cases err with
        | none => simp [eventLoop]
        | some e =>
          have hf : HandleError h (some e) = false := hfatal e (by simp [beforeDone])
          simp [eventLoop, hf]
      rw [hstep, hnext]
      simp [beforeDone, receivedStates]
    | state p =>
      have hd : Msg.done ∈ ms := by simpa using hdone
      have := ih { st with parts := st.parts ++ [p], interupted := true } hd
        (fun e he => hfatal e (by simp [beforeDone] at he ⊢; exact he))
        (Or.inl rfl)
      simpa [eventLoop, beforeDone, receivedStates] using this
    | done =>
      rcases hint with hi | hi
      · simp [eventLoop, hi, hres, beforeDone, receivedStates]
      · simp [beforeDone, receivedStates] at hi

/-- C8, as stated, fails for a downloader that is not resumable: its one part
is interrupted, the loop receives the checkpoint and then the all-finished
signal, and `JoinFile` is called on the empty list of completed files. -/
theorem Start_joins_after_interruption :
    Start demoHelpers demoStat { demoDownloader with resumable := false }
      [.error none, .error none, .error none, .error none, .state demoCheckpoint, .done] =
    some (.joined [] "f".toList) := by
  decide

/-- When the loop reaches the join, `HandleError` has returned on every error
received before the all-finished signal. -/
theorem eventLoop_joined_errors (h : Helpers) (stat : GoString → Except GoError Int)
    (d : HttpDownloader) (msgs : List Msg) :
    ∀ (st : LoopState) (files : List GoString) (out : GoString),
      eventLoop h stat d msgs st = some (.joined files out) →
      ∀ e, Msg.error (some e) ∈ beforeDone msgs → h.fatal e = false := by
  induction msgs with
  | nil =>
    intro st files out hrun
    simp [eventLoop] at hrun
  | cons m ms ih =>
    intro st files out hrun e he
    cases m with
    | file p =>
      exact ih _ files out (by simpa [eventLoop] using hrun) e
        (by simpa [beforeDone] using he)
    | error err =>
      cases err with
      | none =>
        exact ih _ files out (by simpa [eventLoop] using hrun) e
          (by simpa [beforeDone] using he)
      | some e' =>
        cases hf : HandleError h (some e') with
        | true => simp [eventLoop, hf] at hrun
        | false =>
          have hmem : e = e' ∨ Msg.error (some e) ∈ beforeDone ms := by
            simpa [beforeDone] using he
          rcases hmem with rfl | hmem
          · exact hf
          · exact ih _ files out (by simpa [eventLoop, hf] using hrun) e hmem
    | state p =>
      exact ih _ files out (by simpa [eventLoop] using hrun) e
        (by simpa [beforeDone] using he)
    | done => simp [beforeDone] at he

theorem mem_receivedStates (msgs : List Msg) (p : Part) :
    p ∈ receivedStates msgs ↔ Msg.state p ∈ msgs := by
  unfold receivedStates
  rw [List.mem_filterMap]
  constructor
  · rintro ⟨m, hm, hp⟩
    cases m <;> simp at hp
    rw [← hp]
    exact hm
  · intro hm
    exact ⟨_, hm, rfl⟩

theorem receivedFiles_append (l₁ l₂ : List Msg) :
    receivedFiles (l₁ ++ l₂) = receivedFiles l₁ ++ receivedFiles l₂ := by
  unfold receivedFiles
  exact List.filterMap_append _ _ _

/-- A fetcher that sends neither an error that is not nil nor a checkpoint
sends the path of its part on `fileChan`, once. -/
theorem receivedFiles_downloadPart (d : HttpDownloader) (i : Int) (part : Part) (run : PartRun)
    (herr : ∀ e, Msg.error (some e) ∉ downloadPart d i part run)
    (hstate : ∀ q, Msg.state q ∉ downloadPart d i part run) :
    receivedFiles (downloadPart d i part run) = [part.Path] := by
  unfold downloadPart at herr hstate ⊢
  cases hreq : run.reqErr with
  | some e => exact absurd (by simp [hreq]) (herr e)
  | none =>
    cases hdo : run.doErr with
    | some e => exact absurd (by simp [hreq, hdo]) (herr e)
    | none =>
      cases hopen : run.openErr with
      | some e => exact absurd (by simp [hreq, hdo, hopen]) (herr e)
      | none =>
        simp only [hreq, hdo, hopen] at herr hstate ⊢
        unfold downloadSelect at herr hstate ⊢
        cases hrace : run.race with
        | signal written statFails =>
          rw [hrace] at hstate
          exact (hstate _ (List.mem_append_right _ (List.mem_singleton_self _))).elim
        | failed e =>
          rw [hrace] at herr
          exact (herr e (List.mem_append_right _ (List.mem_singleton_self _))).elim
        | copied c =>
          by_cases hc : c = expectedBytes part
          · simp [hc, receivedFiles]
          · rw [hrace] at herr
            have hmem : Msg.error (some (.sizeMismatch i (expectedBytes part) c)) ∈
                [Msg.error none, Msg.error none, Msg.error none] ++
                  (if c ≠ expectedBytes part then
                    [Msg.error (some (.sizeMismatch i (expectedBytes part) c))]
                  else [Msg.file part.Path]) := by
              simp [hc]
            exact (herr _ hmem).elim

theorem receivedFiles_fetcherMessages (d : HttpDownloader) (parts : List Part) :
    ∀ (i : Nat) (runs : List PartRun), runs.length = parts.length →
      (∀ e, Msg.error (some e) ∉ fetcherMessages d i parts runs) →
      (∀ q, Msg.state q ∉ fetcherMessages d i parts runs) →
      receivedFiles (fetcherMessages d i parts runs) = parts.map fun p => p.Path := by
  induction parts with
  | nil =>
    intro i runs _ _ _
    simp [fetcherMessages, receivedFiles]
  | cons p ps ih =>
    intro i runs hlen herr hstate
    cases runs with
    | nil => simp at hlen
    | cons r rs =>
      have hlen' : rs.length = ps.length := by simpa using hlen
      simp only [fetcherMessages] at herr hstate ⊢
      rw [receivedFiles_append,
        receivedFiles_downloadPart d i p r
          (fun e he => herr e (List.mem_append_left _ he))
          (fun q hq => hstate q (List.mem_append_left _ hq)),
        ih (i + 1) rs hlen'
          (fun e he => herr e (List.mem_append_right _ he))
          (fun q hq => hstate q (List.mem_append_right _ hq))]
      rfl

/-- When the event loop receives `doneChan` before a path that waits in the
buffer of `fileChan` (the `select` picks among the ready channels at random),
`JoinFile` is called without that path. -/
theorem Start_done_before_buffered_file :
    Start demoHelpers demoStat demoPlan
      [.error none, .file "d/f.part0".toList, .done, .file "d/f.part1".toList] =
    some (.joined ["d/f.part0".toList] "f".toList) := by
  decide

/-- C8 (amended). Whatever messages the event loop of `Start` receives: when it
calls `JoinFile`, then no interruption checkpoint was received or the
downloader is not resumable; and when the messages received before the
all-finished signal are those that `download` and its fetchers sent, with no
checkpoint among them and `HandleError` ending the process on every error among
them that is not nil, the list handed to `JoinFile` holds one path for every
part of the plan. When a checkpoint was
received and the downloader is resumable, the loop never calls `JoinFile`; it
saves the checkpoints received, provided the all-finished signal arrives and no
error received before it ends the process. -/
theorem Start_join_or_save (h : Helpers) (stat : GoString → Except GoError Int)
    (d : HttpDownloader) (msgs : List Msg) :
    (∀ files out, Start h stat d msgs = some (.joined files out) →
      (d.resumable = false ∨ receivedStates (beforeDone msgs) = []) ∧
      (∀ (poolErr : Option GoError) (runs : List PartRun), runs.length = d.parts.length →
        (beforeDone msgs ++ [Msg.done]).Perm (download d poolErr runs) →
        receivedStates (beforeDone msgs) = [] →
        (∀ e, Msg.error (some e) ∈ beforeDone msgs → h.fatal e = true) →
        files.Perm (d.parts.map fun p => p.Path))) ∧
    (d.resumable = true → receivedStates (beforeDone msgs) ≠ [] →
      (∀ files out, Start h stat d msgs ≠ some (.joined files out)) ∧
      (Msg.done ∈ msgs →
        (∀ e, Msg.error (some e) ∈ beforeDone msgs → h.fatal e = false) →
        Start h stat d msgs =
          some (.saved { URL := d.url, Parts := receivedStates (beforeDone msgs) }))) := by
  have hjoin : ∀ files out, Start h stat d msgs = some (.joined files out) →
      (d.resumable = false ∨ receivedStates (beforeDone msgs) = []) ∧
      files = receivedFiles (beforeDone msgs) := by
    intro files out hrun
    obtain ⟨h1, h2, _⟩ := eventLoop_joined h stat d msgs _ files out hrun
    refine ⟨?_, by simpa using h2⟩
    rcases h1 with h1 | ⟨_, h1⟩
    · exact Or.inl h1
    · exact Or.inr h1
  refine ⟨fun files out hrun => ⟨(hjoin files out hrun).1, ?_⟩, fun hres hstates => ⟨?_, ?_⟩⟩
  · intro poolErr runs hlen hperm hstates hfatal
    have herr : ∀ e, Msg.error (some e) ∉ beforeDone msgs := by
      intro e he
      have hret := eventLoop_joined_errors h stat d msgs _ files out hrun e he
      rw [hfatal e he] at hret
      exact Bool.noConfusion hret
    rw [(hjoin files out hrun).2]
    have hsent : (beforeDone msgs).Perm (.error poolErr :: fetcherMessages d 0 d.parts runs) := by
      unfold download at hperm
      exact (List.perm_append_right_iff [Msg.done]).mp hperm
    have hfiles : (receivedFiles (beforeDone msgs)).Perm
        (receivedFiles (.error poolErr :: fetcherMessages d 0 d.parts runs)) :=
      hsent.filterMap _
    have hclean := receivedFiles_fetcherMessages d d.parts 0 runs hlen
      (fun e he => herr e (hsent.mem_iff.mpr (List.mem_cons_of_mem _ he)))
      (fun q hq => by
        have hmem : q ∈ receivedStates (beforeDone msgs) :=
          (mem_receivedStates _ q).mpr (hsent.mem_iff.mpr (List.mem_cons_of_mem _ hq))
        rw [hstates] at hmem
        exact absurd hmem (List.not_mem_nil q))
    have hhead : receivedFiles (.error poolErr :: fetcherMessages d 0 d.parts runs) =
        receivedFiles (fetcherMessages d 0 d.parts runs) := rfl
    rw [hhead, hclean] at hfiles
    exact hfiles
  · intro files out hrun
    rcases (hjoin files out hrun).1 with hc | hc
    · rw [hres] at hc
      exact Bool.noConfusion hc
    · exact hstates hc
  · intro hdone hfatal
    have := eventLoop_saved h stat d hres msgs
      { files := [], parts := [], interupted := false } hdone hfatal (Or.inr hstates)
    simpa [Start] using this

/-- The statement of `Start_join_or_save` at a run of two parts that both
complete, where both paths are joined, and at a resumable downloader whose part
is interrupted, where the checkpoint is saved and nothing is joined. -/
theorem Start_join_or_save_witness :
    (Start demoHelpers demoStat demoPlan demoComplete =
        some (.joined ["d/f.part1".toList, "d/f.part0".toList] "f".toList) ∧
      ["d/f.part1".toList, "d/f.part0".toList].Perm (demoPlan.parts.map fun p => p.Path)) ∧
    (∀ files out, Start demoHelpers demoStat demoDownloader
        [.error none, .state demoCheckpoint, .done] ≠ some (.joined files out)) ∧
    Start demoHelpers demoStat demoDownloader [.error none, .state demoCheckpoint, .done] =
      some (.saved { URL := "u".toList, Parts := [demoCheckpoint] }) :=
  have hrun : Start demoHelpers demoStat demoPlan demoComplete =
      some (.joined ["d/f.part1".toList, "d/f.part0".toList] "f".toList) := by decide
  have hall := ((Start_join_or_save demoHelpers demoStat demoPlan demoComplete).1
    ["d/f.part1".toList, "d/f.part0".toList] "f".toList hrun).2 none [demoRun, demoRun] rfl
    (by decide) (by decide) (by intro e he; simp [demoComplete, beforeDone] at he)
  have hw := (Start_join_or_save demoHelpers demoStat demoDownloader
    [.error none, .state demoCheckpoint, .done]).2 rfl (by decide)
  ⟨⟨hrun, hall⟩, hw.1, hw.2 (by decide) (by intro e he; simp [beforeDone] at he)⟩


theorem calculateParts_one (h : Helpers) (length : Int) (url : GoString)
    (hok : h.CreateFolderIfNotExist (h.GetValidFolderPath url) = none) :
    calculateParts h 1 length url = .value [partAt h 1 length url 0] := by
  rw [calculateParts_ok h 1 length url hok]
  rfl

/-- The part of C5 that holds: when the probe response lacks `Content-Length` or
`Accept-Ranges` and no checkpoint parts are supplied, the downloader has one
part and `totalParts = 1`; `resumable` is false exactly when `Accept-Ranges` is
missing. -/
theorem NewHttpDownloader_single_part (h : Helpers) (header : ProbeHeader) (url : GoString)
    (connections : Int) (d : HttpDownloader)
    (hmiss : header.contentLength = [] ∨ header.acceptRange = [])
    (hok : h.CreateFolderIfNotExist (h.GetValidFolderPath url) = none)
    (hd : NewHttpDownloader h header url connections [] = .value d) :
    d.totalParts = 1 ∧ d.parts.length = 1 ∧
    (d.resumable = false ↔ header.acceptRange = []) := by
  unfold NewHttpDownloader at hd
  simp only [List.length_nil, if_true] at hd
  by_cases hcl : header.contentLength = [] <;> by_cases har : header.acceptRange = []
  all_goals simp only [hcl, har, if_true, if_false] at hd
  all_goals try (rcases hmiss with hm | hm <;> exact absurd hm (by assumption))
  all_goals
    split at hd
    · exact Returned.noConfusion hd
    · rw [calculateParts_one h _ url hok] at hd
      simp only at hd
      split at hd
      · exact Returned.noConfusion hd
      · simp only [Returned.value.injEq] at hd
        subst hd
        simp [har]

end Falcon
